import Mathlib

/-!
Verification development for the mlpack Cartesian series-expansion core.

Numbers: the C++ code computes with `double`; the embedding uses `ℚ`, so every
arithmetic identity is exact (the "within floating-point tolerance" phrases of
the specification become exact equalities here).

The file has two parts:
* `math` — the clamp utilities of `math_lib.h`, embedded directly from the source.
* `mlpack` — the far-field series-expansion engine.  The file
  `cartesian_farfield.h` in the repository only declares the class
  `CartesianFarField` (the inline getters/setters are real source code); the
  bodies of `Accumulate`, `AccumulateCoeffs`, `RefineCoeffs`, `EvaluateField`,
  `TranslateFromFarField`, `OrderForEvaluating` and `OrderForConvertingToLocal`
  are not in the repository slice, so those operations are modelled from the
  specification, as flagged in their doc comments.
-/

namespace math

/-- Embeds `math::ClampNonNegative` from `math_lib.h`: `(d + fabs(d)) / 2`. -/
def ClampNonNegative (d : ℚ) : ℚ := (d + |d|) / 2

/-- Embeds `math::ClampNonPositive` from `math_lib.h`: `(d - fabs(d)) / 2`. -/
def ClampNonPositive (d : ℚ) : ℚ := (d - |d|) / 2

/-- Embeds `math::ClampRange` from `math_lib.h`: returns `range_min` if
`value <= range_min`, else `range_max` if `value >= range_max`, else `value`. -/
def ClampRange (value range_min range_max : ℚ) : ℚ :=
  if value ≤ range_min then range_min
  else if value ≥ range_max then range_max
  else value

end math

namespace mlpack

/-- All `D`-dimensional multi-indices of total order exactly `k`, ordered
lexicographically (first coordinate varies slowest, ascending). -/
def multiIndicesOfOrder : ℕ → ℕ → List (List ℕ)
  | 0, 0 => [[]]
  | 0, _ + 1 => []
  | d + 1, k =>
    (List.range (k + 1)).flatMap (fun a => (multiIndicesOfOrder d (k - a)).map (a :: ·))

/-- MultiIndexTable enumeration: every `D`-dimensional multi-index of order
`≤ p`, grouped by increasing order, lexicographic inside each order group. -/
def enumerateMultiIndices (D p : ℕ) : List (List ℕ) :=
  (List.range (p + 1)).flatMap (multiIndicesOfOrder D)

/-- Number of coefficients of a dimension-`D` expansion of order `p`. -/
def numCoeffs (D p : ℕ) : ℕ := (enumerateMultiIndices D p).length

/-- Rank of a multi-index: its position in the enumeration (the position is the
same in every enumeration `enumerateMultiIndices D p` with `p ≥ α.sum`, because
the enumeration is grouped by increasing order). -/
def rank (α : List ℕ) : ℕ := (enumerateMultiIndices α.length α.sum).indexOf α

/-- Componentwise power `u ^ α`: the product of `u i ^ α i`. -/
def multiPow (u : List ℚ) (α : List ℕ) : ℚ :=
  (List.zipWith (fun x a => x ^ a) u α).prod

/-- The normalized displacement `(r - center) / (k·h)`, componentwise. -/
def displacement (center : List ℚ) (kh : ℚ) (r : List ℚ) : List ℚ :=
  List.zipWith (fun x c => (x - c) / kh) r center

/-- Componentwise addition of coefficient vectors; the longer tail is kept, so
adding never discards entries. -/
def addInto : List ℚ → List ℚ → List ℚ
  | cs, [] => cs
  | [], ds => ds
  | c :: cs, d :: ds => (c + d) :: addInto cs ds

/-- The far-field expansion state: center, coefficient vector, truncation
order, and the kernel-auxiliary scale `k·h` fixed at `Init` time
(`cartesian_farfield.h`, member variables `center_`, `coeffs_`, `order_`). -/
@[ext]
structure CartesianFarField where
  center : List ℚ
  coeffs : List ℚ
  order : ℕ
  kh : ℚ
deriving DecidableEq

namespace CartesianFarField

/-- The dimension of the expansion is the length of its center point. -/
def dim (e : CartesianFarField) : ℕ := e.center.length

/-- Embeds `get_weight_sum` from `cartesian_farfield.h` line 80: returns
`coeffs_[0]`. -/
def get_weight_sum (e : CartesianFarField) : ℚ := e.coeffs.getD 0 0

/-- Embeds `get_order` from `cartesian_farfield.h`: returns `order_`. -/
def get_order (e : CartesianFarField) : ℕ := e.order

/-- Embeds `set_order` from `cartesian_farfield.h` line 88: `order_ = new_order`
with no validation and no change to the coefficient vector. -/
def set_order (e : CartesianFarField) (new_order : ℕ) : CartesianFarField :=
  { e with order := new_order }

/-- Modelled from the spec: the body of `Init` is missing from the repository
slice; §4.2 says it sets the center, zeroes the coefficients and sets
order = 0. -/
def Init (center : List ℚ) (kh : ℚ) : CartesianFarField :=
  { center := center
    coeffs := List.replicate (numCoeffs center.length 0) 0
    order := 0
    kh := kh }

/-- Modelled from the spec: the body of `Accumulate` is missing from the
repository slice; §4.2 (matching the doc comment in `cartesian_farfield.h`)
says that for every multi-index `α` with `|α| ≤ order` it adds
`weight · ((referencePoint − center)/(k·h))^α` into `coeffs[rank α]`.  The
order field records the highest accumulated order. -/
def Accumulate (e : CartesianFarField) (referencePoint : List ℚ) (weight : ℚ)
    (p : ℕ) : CartesianFarField :=
  { e with
    coeffs := addInto e.coeffs ((enumerateMultiIndices e.dim p).map
      (fun α => weight * multiPow (displacement e.center e.kh referencePoint) α))
    order := max e.order p }

/-- Modelled from the spec: the body of `AccumulateCoeffs` is missing from the
repository slice; §4.2 says it adds the batch moment
`Σ_j w_j ((r_j − center)/(k·h))^α` into `coeffs[rank α]` for every `|α| ≤ order`
(the `begin`/`end` range is represented by passing the selected rows). -/
def AccumulateCoeffs (e : CartesianFarField) (data : List (List ℚ))
    (weights : List ℚ) (p : ℕ) : CartesianFarField :=
  { e with
    coeffs := addInto e.coeffs ((enumerateMultiIndices e.dim p).map
      (fun α => ((data.zip weights).map
        (fun rw => rw.2 * multiPow (displacement e.center e.kh rw.1) α)).sum))
    order := max e.order p }

/-- Modelled from the spec: the body of `RefineCoeffs` is missing from the
repository slice; §4.2 says it only computes and adds contributions for
multi-indices of order strictly greater than the object's current order field,
then updates the order field (the update keeps the spec's §3 invariant that the
order never decreases, so it is `max`). -/
def RefineCoeffs (e : CartesianFarField) (data : List (List ℚ))
    (weights : List ℚ) (p : ℕ) : CartesianFarField :=
  { e with
    coeffs := addInto e.coeffs ((enumerateMultiIndices e.dim p).map
      (fun α => if e.order < α.sum then
        ((data.zip weights).map
          (fun rw => rw.2 * multiPow (displacement e.center e.kh rw.1) α)).sum
        else 0))
    order := max e.order p }

/-- Errors of the engine, per spec §7. -/
inductive SeriesExpansionError where
  | DomainError
deriving DecidableEq

/-- Multi-index factorial `α! = Π (α i)!` as a rational. -/
def factorialProd (α : List ℕ) : ℚ := ((α.map Nat.factorial).prod : ℕ)

/-- Modelled from the spec: the body of `EvaluateField` is missing from the
repository slice; §4.2 says it returns
`Σ_{|α| ≤ order} coeffs[rank α] · (q − center)^α / α!`, and fails with
`DomainError` when the requested order exceeds the accumulated order. -/
def EvaluateField (e : CartesianFarField) (q : List ℚ) (p : ℕ) :
    Except SeriesExpansionError ℚ :=
  if e.order < p then Except.error SeriesExpansionError.DomainError
  else Except.ok
    ((List.zipWith
      (fun α c => c * multiPow (List.zipWith (fun x y => x - y) q e.center) α /
        factorialProd α)
      (enumerateMultiIndices e.dim p) e.coeffs).sum)

/-- All multi-indices componentwise `≤ β`, lexicographic. -/
def belowMI : List ℕ → List (List ℕ)
  | [] => [[]]
  | b :: bs => (List.range (b + 1)).flatMap (fun a => (belowMI bs).map (a :: ·))

/-- The product of binomial coefficients `Π choose (β i) (α i)` as a rational. -/
def binomProd (β α : List ℕ) : ℚ := ((List.zipWith Nat.choose β α).prod : ℕ)

/-- Componentwise truncated subtraction of multi-indices. -/
def subMI (β α : List ℕ) : List ℕ := List.zipWith (fun b a => b - a) β α

/-- Modelled from the spec: the far→far translation delta added by
`TranslateFromFarField` (§4.4): each output coefficient at `β` is the weighted
sum over the source coefficients at `α ≤ β` with multinomial-shift weights
`Π choose (β i) (α i) · s^(β−α)` where `s = (sourceCenter − center)/(k·h)`. -/
def translationDelta (e se : CartesianFarField) : List ℚ :=
  (enumerateMultiIndices e.dim se.order).map (fun β =>
    ((belowMI β).map (fun α =>
      binomProd β α * multiPow (displacement e.center e.kh se.center) (subMI β α) *
        se.coeffs.getD (rank α) 0)).sum)

/-- Modelled from the spec: the body of `TranslateFromFarField` is missing from
the repository slice; §4.2/§4.4 say it merges the other far-field expansion
into this one by re-centering (multinomial shift theorem) and adding, the other
expansion being read-only. -/
def TranslateFromFarField (e se : CartesianFarField) : CartesianFarField :=
  { e with
    coeffs := addInto e.coeffs (translationDelta e se)
    order := max e.order se.order }

/-- Modelled from the spec: the order-selection loop of §4.5 — try orders
`i, i+1, ...` (`fuel` orders in total) and return the first one whose error
bound is at most the tolerance. -/
def searchOrderFrom (errorBound : ℕ → ℚ) (maxError : ℚ) : ℕ → ℕ → Option ℕ
  | _, 0 => none
  | i, fuel + 1 =>
    if errorBound i ≤ maxError then some i
    else searchOrderFrom errorBound maxError (i + 1) fuel

/-- Modelled from the spec: the body of `OrderForEvaluating` is missing from
the repository slice; §4.5 says it searches orders `0..maxOrder` for the
smallest one whose closed-form truncation-error bound is `≤ maxError` and
reports that bound as the actual error, returning `-1` when no order
qualifies.  The closed-form bound itself lives in the kernel-auxiliary
collaborator (also missing), so it is abstracted as `errorBound`. -/
def OrderForEvaluating (errorBound : ℕ → ℚ) (maxOrder : ℕ) (maxError : ℚ) :
    ℤ × ℚ :=
  match searchOrderFrom errorBound maxError 0 (maxOrder + 1) with
  | some i => ((i : ℤ), errorBound i)
  | none => (-1, errorBound maxOrder)

/-- Modelled from the spec: the body of `OrderForConvertingToLocal` is missing
from the repository slice; §4.5 and the header doc comment say it performs the
same search against the combined (truncation + conversion) error bound and
returns `-1` if approximation up to the maximum order is not possible. -/
def OrderForConvertingToLocal (combinedBound : ℕ → ℚ) (maxOrder : ℕ)
    (required_bound : ℚ) : ℤ × ℚ :=
  match searchOrderFrom combinedBound required_bound 0 (maxOrder + 1) with
  | some i => ((i : ℤ), combinedBound i)
  | none => (-1, combinedBound maxOrder)

/-- The §3 representation invariant: the coefficient vector length matches the
order field and the dimension. -/
def consistent (e : CartesianFarField) : Prop :=
  e.coeffs.length = numCoeffs e.dim e.order

instance (e : CartesianFarField) : Decidable (consistent e) := by
  unfold consistent; infer_instance

end CartesianFarField

end mlpack

namespace mlpack

/-- The zero multi-index is the unique multi-index of order `0`. -/
theorem multiIndicesOfOrder_zero (D : ℕ) :
    multiIndicesOfOrder D 0 = [List.replicate D 0] := by
  induction D with
  | zero => rfl
  | succ d ih =>
    simp [multiIndicesOfOrder, List.range_succ, ih, List.replicate_succ]

/-- Membership in the order-`k` group: exactly the length-`D` multi-indices of
total order `k`. -/
theorem mem_multiIndicesOfOrder {D k : ℕ} {α : List ℕ} :
    α ∈ multiIndicesOfOrder D k ↔ α.length = D ∧ α.sum = k := by
  induction D generalizing k α with
  | zero =>
    cases k with
    | zero =>
      simp only [multiIndicesOfOrder, List.mem_singleton]
      constructor
      · rintro rfl; simp
      · rintro ⟨h1, _⟩
        exact List.length_eq_zero.mp h1
    | succ k =>
      simp only [multiIndicesOfOrder, List.not_mem_nil, false_iff, not_and]
      intro h1
      rw [List.length_eq_zero.mp h1]
      simp
  | succ d ih =>
    simp only [multiIndicesOfOrder, List.mem_flatMap, List.mem_range,
      List.mem_map]
    constructor
    · rintro ⟨a, ha, β, hβ, rfl⟩
      obtain ⟨hlen, hsum⟩ := ih.mp hβ
      refine ⟨by simp [hlen], ?_⟩
      simp only [List.sum_cons, hsum]
      omega
    · rintro ⟨hlen, hsum⟩
      cases α with
      | nil => simp at hlen
      | cons a β =>
        simp only [List.length_cons, Nat.succ_inj] at hlen
        simp only [List.sum_cons] at hsum
        exact ⟨a, by omega, β, ih.mpr ⟨hlen, by omega⟩, rfl⟩

/-- Raising the maximum order appends the new order group. -/
theorem enumerateMultiIndices_succ (D p : ℕ) :
    enumerateMultiIndices D (p + 1) =
      enumerateMultiIndices D p ++ multiIndicesOfOrder D (p + 1) := by
  unfold enumerateMultiIndices
  rw [List.range_succ, List.flatMap_append]
  simp

/-- The enumeration for a lower maximum order is a prefix of the enumeration
for a higher one, and everything in the added suffix has order `> q`. -/
theorem enumerateMultiIndices_extend {D q p : ℕ} (h : q ≤ p) :
    ∃ t, enumerateMultiIndices D p = enumerateMultiIndices D q ++ t ∧
      ∀ α ∈ t, q < α.sum := by
  induction p, h using Nat.le_induction with
  | base => exact ⟨[], by simp⟩
  | succ p hqp ih =>
    obtain ⟨t, ht, htmem⟩ := ih
    refine ⟨t ++ multiIndicesOfOrder D (p + 1), ?_, ?_⟩
    · rw [enumerateMultiIndices_succ, ht, List.append_assoc]
    · intro α hα
      rcases List.mem_append.mp hα with h1 | h1
      · exact htmem α h1
      · have := (mem_multiIndicesOfOrder.mp h1).2
        omega

/-- Membership in the enumeration: exactly the length-`D` multi-indices of
total order `≤ p`. -/
theorem mem_enumerateMultiIndices {D p : ℕ} {α : List ℕ} :
    α ∈ enumerateMultiIndices D p ↔ α.length = D ∧ α.sum ≤ p := by
  unfold enumerateMultiIndices
  simp only [List.mem_flatMap, List.mem_range]
  constructor
  · rintro ⟨k, hk, hα⟩
    obtain ⟨h1, h2⟩ := mem_multiIndicesOfOrder.mp hα
    exact ⟨h1, by omega⟩
  · rintro ⟨h1, h2⟩
    exact ⟨α.sum, by omega, mem_multiIndicesOfOrder.mpr ⟨h1, rfl⟩⟩

/-- The enumeration starts with the zero multi-index. -/
theorem enumerateMultiIndices_eq_cons (D p : ℕ) :
    ∃ t, enumerateMultiIndices D p = List.replicate D 0 :: t := by
  refine ⟨(List.map Nat.succ (List.range p)).flatMap (multiIndicesOfOrder D), ?_⟩
  unfold enumerateMultiIndices
  rw [List.range_succ_eq_map, List.flatMap_cons, multiIndicesOfOrder_zero]
  rfl

/-- The number of coefficients grows with the order. -/
theorem numCoeffs_mono {D q p : ℕ} (h : q ≤ p) : numCoeffs D q ≤ numCoeffs D p := by
  obtain ⟨t, ht, -⟩ := enumerateMultiIndices_extend (D := D) h
  unfold numCoeffs
  rw [ht, List.length_append]
  omega

theorem numCoeffs_max (D q p : ℕ) :
    numCoeffs D (max q p) = max (numCoeffs D q) (numCoeffs D p) := by
  rcases le_total q p with h | h
  · rw [max_eq_right h, max_eq_right (numCoeffs_mono h)]
  · rw [max_eq_left h, max_eq_left (numCoeffs_mono h)]

theorem addInto_nil_left (ds : List ℚ) : addInto [] ds = ds := by
  cases ds <;> rfl

theorem addInto_length (cs ds : List ℚ) :
    (addInto cs ds).length = max cs.length ds.length := by
  induction cs generalizing ds with
  | nil => rw [addInto_nil_left]; simp
  | cons c cs ih =>
    cases ds with
    | nil => simp [addInto]
    | cons d ds =>
      simp only [addInto, List.length_cons, ih]
      omega

/-- Adding two coefficient vectors laid out over the same enumeration adds the
entries pointwise. -/
theorem addInto_map_same (l : List (List ℕ)) (f g : List ℕ → ℚ) :
    addInto (l.map f) (l.map g) = l.map (fun a => f a + g a) := by
  induction l with
  | nil => rfl
  | cons a l ih => simp [addInto, ih]

theorem addInto_append (cs ds es : List ℚ) (h : cs.length = ds.length) :
    addInto cs (ds ++ es) = addInto cs ds ++ es := by
  induction cs generalizing ds with
  | nil =>
    rw [List.eq_nil_of_length_eq_zero h.symm]
    simp [addInto_nil_left]
  | cons c cs ih =>
    cases ds with
    | nil => simp at h
    | cons d ds =>
      simp only [List.length_cons, Nat.succ_inj] at h
      simp only [List.cons_append, addInto]
      exact congrArg (List.cons (c + d)) (ih ds h)

/-- Adding a vector laid out over a prefix enumeration into one laid out over
a larger enumeration. -/
theorem addInto_map_grow {D q p : ℕ} (h : q ≤ p) (f g : List ℕ → ℚ) :
    addInto ((enumerateMultiIndices D q).map f) ((enumerateMultiIndices D p).map g)
      = (enumerateMultiIndices D p).map
          (fun α => (if α.sum ≤ q then f α else 0) + g α) := by
  obtain ⟨t, ht, htmem⟩ := enumerateMultiIndices_extend (D := D) h
  rw [ht, List.map_append, List.map_append,
    addInto_append _ _ _ (by simp), addInto_map_same]
  congr 1
  · apply List.map_congr_left
    intro α hα
    rw [if_pos (mem_enumerateMultiIndices.mp hα).2]
  · apply List.map_congr_left
    intro α hα
    rw [if_neg (by have := htmem α hα; omega), zero_add]

namespace CartesianFarField

/-- The batch moment vector `[Σ_j w_j ((r_j − C)/(k·h))^α]_{|α| ≤ p}`. -/
def momentVector (C : List ℚ) (kh : ℚ) (data : List (List ℚ))
    (weights : List ℚ) (p : ℕ) : List ℚ :=
  (enumerateMultiIndices C.length p).map
    (fun α => ((data.zip weights).map
      (fun rw => rw.2 * multiPow (displacement C kh rw.1) α)).sum)

/-- Accumulating a batch into a freshly initialized expansion produces exactly
the batch moment vector, at order `p`. -/
theorem AccumulateCoeffs_Init (C : List ℚ) (kh : ℚ) (data : List (List ℚ))
    (weights : List ℚ) (p : ℕ) :
    (AccumulateCoeffs (Init C kh) data weights p).coeffs
        = momentVector C kh data weights p ∧
      (AccumulateCoeffs (Init C kh) data weights p).order = p ∧
      (AccumulateCoeffs (Init C kh) data weights p).center = C ∧
      (AccumulateCoeffs (Init C kh) data weights p).kh = kh := by
  refine ⟨?_, by simp [AccumulateCoeffs, Init], rfl, rfl⟩
  simp only [AccumulateCoeffs, Init, dim, momentVector]
  have h0 : (numCoeffs C.length 0) = (enumerateMultiIndices C.length 0).length := rfl
  rw [h0, ← List.map_const' (enumerateMultiIndices C.length 0) (0 : ℚ),
    addInto_map_grow (Nat.zero_le p)]
  apply List.map_congr_left
  intro α hα
  rw [ite_self, zero_add]

/-- Raising the zero multi-index to any power gives `1`. -/
theorem multiPow_replicate_zero (u : List ℚ) (n : ℕ) :
    multiPow u (List.replicate n 0) = 1 := by
  induction u generalizing n with
  | nil => simp [multiPow]
  | cons x xs ih =>
    cases n with
    | zero => simp [multiPow]
    | succ n =>
      simp only [List.replicate_succ, multiPow, List.zipWith_cons_cons,
        List.prod_cons, pow_zero, one_mul]
      exact ih n

theorem zip_snd_sum (data : List (List ℚ)) (weights : List ℚ)
    (h : data.length = weights.length) :
    ((data.zip weights).map (fun rw => rw.2)).sum = weights.sum := by
  induction data generalizing weights with
  | nil =>
    rw [List.eq_nil_of_length_eq_zero h.symm]
    rfl
  | cons r data ih =>
    cases weights with
    | nil => simp at h
    | cons w weights =>
      simp only [List.length_cons, Nat.succ_inj] at h
      simp [ih weights h]

/-- Refining a freshly accumulated batch up to a higher order gives exactly the
directly accumulated batch at that order. -/
theorem RefineCoeffs_AccumulateCoeffs (C : List ℚ) (kh : ℚ)
    (data : List (List ℚ)) (weights : List ℚ) (p p2 : ℕ) (h : p ≤ p2) :
    RefineCoeffs (AccumulateCoeffs (Init C kh) data weights p) data weights p2
      = AccumulateCoeffs (Init C kh) data weights p2 := by
  obtain ⟨hc, ho, hcen, hkh⟩ := AccumulateCoeffs_Init C kh data weights p
  obtain ⟨hc2, ho2, hcen2, hkh2⟩ := AccumulateCoeffs_Init C kh data weights p2
  have hdim : (AccumulateCoeffs (Init C kh) data weights p).dim = C.length := by
    rw [dim, hcen]
  ext1
  · rw [RefineCoeffs, hcen, hcen2]
  · show addInto _ _ = _
    rw [hdim, hc, ho, hcen, hkh, hc2, momentVector, momentVector,
      addInto_map_grow h]
    apply List.map_congr_left
    intro α hα
    by_cases hs : α.sum ≤ p
    · rw [if_pos hs, if_neg (by omega), add_zero]
    · rw [if_neg hs, if_pos (by omega), zero_add]
  · show max _ _ = _
    rw [ho, ho2]
    omega
  · rw [RefineCoeffs, hkh, hkh2]

end CartesianFarField

open CartesianFarField in
/-- C1 counterexample: with `D = 1`, center `0`, reference point `2`,
weight `1`, `k·h = 1`, order `2`, the accumulation contract of §4.2 (add
`weight · ((r−c)/(k·h))^α` for every `|α| ≤ 2`) does not produce the
coefficient vector `[1, 2, 2]` claimed by the scenario. -/
theorem accumulate_scenario_counterexample :
    ¬ ((Accumulate (Init [0] 1) [2] 1 2).coeffs = [1, 2, 2]) := by
  norm_num [Accumulate, Init, dim, numCoeffs, enumerateMultiIndices,
    multiIndicesOfOrder, displacement, multiPow, addInto, List.range_succ]

open CartesianFarField in
/-- C1 amended: in the §8 scenario (`D = 1`, center `0`, reference point `2`,
weight `1`, `k·h = 1`, order `2`) the coefficient vector is `[1, 2, 4]` — the
coefficient at each multi-index `α` receives
`weight · ((referencePoint − center)/(k·h))^α = 1 · 2^α`. -/
theorem accumulate_scenario :
    (Accumulate (Init [0] 1) [2] 1 2).coeffs = [1, 2, 4] := by
  norm_num [Accumulate, Init, dim, numCoeffs, enumerateMultiIndices,
    multiIndicesOfOrder, displacement, multiPow, addInto, List.range_succ]

open CartesianFarField in
/-- C4: accumulating a point set to order `p`, refining to `p2 > p`, then
evaluating at order `p2` agrees with directly accumulating to `p2` and
evaluating (in fact the refined state equals the directly accumulated state);
`RefineCoeffs` adds contributions only for multi-indices of order strictly
greater than the current order field and then updates that field. -/
theorem refine_then_evaluate (C : List ℚ) (kh : ℚ) (data : List (List ℚ))
    (weights : List ℚ) (p p2 : ℕ) (q : List ℚ) (h : p < p2) :
    RefineCoeffs (AccumulateCoeffs (Init C kh) data weights p) data weights p2
        = AccumulateCoeffs (Init C kh) data weights p2 ∧
      EvaluateField
          (RefineCoeffs (AccumulateCoeffs (Init C kh) data weights p)
            data weights p2) q p2
        = EvaluateField (AccumulateCoeffs (Init C kh) data weights p2) q p2 ∧
      ∀ e : CartesianFarField, ∀ dd ww pp,
        (RefineCoeffs e dd ww pp).order = max e.order pp := by
  have heq := RefineCoeffs_AccumulateCoeffs C kh data weights p p2 h.le
  exact ⟨heq, by rw [heq], fun e dd ww pp => rfl⟩

open CartesianFarField in
/-- Witness for C4 at a concrete input. -/
theorem refine_then_evaluate_witness :
    1 < 2 ∧
      RefineCoeffs (AccumulateCoeffs (Init [0] 1) [[2]] [1] 1) [[2]] [1] 2
        = AccumulateCoeffs (Init [0] 1) [[2]] [1] 2 :=
  ⟨by decide,
    (refine_then_evaluate [0] 1 [[2]] [1] 1 2 [1] (by decide)).1⟩

open CartesianFarField in
/-- C5: `get_weight_sum` returns `coeffs[0]`, which for any accumulated point
set equals the exact sum of the accumulated weights, independent of the
expansion order, and equals `0` right after `Init`. -/
theorem get_weight_sum_spec (C : List ℚ) (kh : ℚ) (data : List (List ℚ))
    (weights : List ℚ) (p : ℕ) (h : data.length = weights.length) :
    get_weight_sum (AccumulateCoeffs (Init C kh) data weights p)
        = weights.sum ∧
      (∀ e : CartesianFarField, get_weight_sum e = e.coeffs.getD 0 0) ∧
      get_weight_sum (Init C kh) = 0 := by
  refine ⟨?_, fun e => rfl, ?_⟩
  · obtain ⟨hc, -, -, -⟩ := AccumulateCoeffs_Init C kh data weights p
    rw [get_weight_sum, hc, momentVector]
    obtain ⟨t, ht⟩ := enumerateMultiIndices_eq_cons C.length p
    rw [ht, List.map_cons, List.getD_cons_zero]
    calc ((data.zip weights).map
          (fun rw => rw.2 * multiPow (displacement C kh rw.1)
            (List.replicate C.length 0))).sum
        = ((data.zip weights).map (fun rw => rw.2)).sum := by
          apply congrArg
          apply List.map_congr_left
          intro rw hrw
          rw [multiPow_replicate_zero, mul_one]
      _ = weights.sum := zip_snd_sum data weights h
  · rw [get_weight_sum, Init]
    cases hn : numCoeffs C.length 0 with
    | zero => rfl
    | succ n => simp [List.replicate_succ]

open CartesianFarField in
/-- Witness for C5 at a concrete input. -/
theorem get_weight_sum_spec_witness :
    ([[2], [3]] : List (List ℚ)).length = ([1, 2] : List ℚ).length ∧
      get_weight_sum (AccumulateCoeffs (Init [0] 1) [[2], [3]] [1, 2] 2)
        = ([1, 2] : List ℚ).sum :=
  ⟨by decide, (get_weight_sum_spec [0] 1 [[2], [3]] [1, 2] 2 (by decide)).1⟩

open CartesianFarField in
/-- C8: `EvaluateField` fails with `DomainError` exactly when the requested
order strictly exceeds the accumulated order, and succeeds (returns a value,
reported through an explicit result rather than an abort) for every requested
order at most the accumulated order. -/
theorem EvaluateField_domain (e : CartesianFarField) (q : List ℚ) (p : ℕ) :
    (e.order < p →
        EvaluateField e q p = Except.error SeriesExpansionError.DomainError) ∧
      (p ≤ e.order → ∃ v, EvaluateField e q p = Except.ok v) := by
  unfold EvaluateField
  constructor
  · intro h
    rw [if_pos h]
  · intro h
    rw [if_neg (Nat.not_lt.mpr h)]
    exact ⟨_, rfl⟩

open CartesianFarField in
/-- Witness for C8 at a concrete input: an expansion accumulated to order 2
rejects a request for order 3 and accepts one for order 2. -/
theorem EvaluateField_domain_witness :
    ((AccumulateCoeffs (Init [0] 1) [[2]] [1] 2).order < 3 ∧
        EvaluateField (AccumulateCoeffs (Init [0] 1) [[2]] [1] 2) [1] 3
          = Except.error SeriesExpansionError.DomainError) ∧
      (2 ≤ (AccumulateCoeffs (Init [0] 1) [[2]] [1] 2).order ∧
        ∃ v, EvaluateField (AccumulateCoeffs (Init [0] 1) [[2]] [1] 2) [1] 2
          = Except.ok v) :=
  ⟨⟨by decide,
      (EvaluateField_domain (AccumulateCoeffs (Init [0] 1) [[2]] [1] 2)
        [1] 3).1 (by decide)⟩,
    ⟨by decide,
      (EvaluateField_domain (AccumulateCoeffs (Init [0] 1) [[2]] [1] 2)
        [1] 2).2 (by decide)⟩⟩

open CartesianFarField in
/-- C7 counterexample: `set_order` (implemented inline in
`cartesian_farfield.h`) is a public operation that decreases the order field:
on an expansion accumulated to order 2 it sets the order to 0, so the claim
that no public operation decreases the order is false. -/
theorem set_order_decreases_counterexample :
    (set_order (AccumulateCoeffs (Init [0] 1) [[2]] [1] 2) 0).order
      < (AccumulateCoeffs (Init [0] 1) [[2]] [1] 2).order := by
  decide

open CartesianFarField in
/-- C7 amended: `Init` establishes the length invariant (`coeffs.length`
matches the order field and dimension), every accumulation, refinement and
far-to-far merge preserves it, and `RefineCoeffs` and the accumulation
operations never decrease the order — but `set_order` writes the order field
directly and can decrease it. -/
theorem invariants_spec :
    (∀ C : List ℚ, ∀ kh : ℚ, consistent (Init C kh)) ∧
      (∀ e : CartesianFarField, ∀ r : List ℚ, ∀ w : ℚ, ∀ p : ℕ,
        consistent e → consistent (Accumulate e r w p)) ∧
      (∀ e : CartesianFarField, ∀ data weights p, consistent e →
        consistent (AccumulateCoeffs e data weights p)) ∧
      (∀ e : CartesianFarField, ∀ data weights p, consistent e →
        consistent (RefineCoeffs e data weights p)) ∧
      (∀ e se : CartesianFarField, consistent e →
        consistent (TranslateFromFarField e se)) ∧
      (∀ e : CartesianFarField, ∀ data weights p,
        e.order ≤ (RefineCoeffs e data weights p).order) ∧
      (∀ e : CartesianFarField, ∀ r w p,
        e.order ≤ (Accumulate e r w p).order) := by
  refine ⟨?_, ?_, ?_, ?_, ?_, ?_, ?_⟩
  · intro C kh
    show (List.replicate _ _).length = _
    rw [List.length_replicate]
    rfl
  · intro e r w p he
    show (addInto _ _).length = numCoeffs _ (max e.order p)
    rw [addInto_length, he, List.length_map, numCoeffs_max]
    rfl
  · intro e data weights p he
    show (addInto _ _).length = numCoeffs _ (max e.order p)
    rw [addInto_length, he, List.length_map, numCoeffs_max]
    rfl
  · intro e data weights p he
    show (addInto _ _).length = numCoeffs _ (max e.order p)
    rw [addInto_length, he, List.length_map, numCoeffs_max]
    rfl
  · intro e se he
    show (addInto _ _).length = numCoeffs _ (max e.order se.order)
    rw [addInto_length, he, translationDelta, List.length_map, numCoeffs_max]
    rfl
  · intro e data weights p
    exact Nat.le_max_left _ _
  · intro e r w p
    exact Nat.le_max_left _ _

open CartesianFarField in
/-- Witness for C7 at a concrete input. -/
theorem invariants_spec_witness :
    consistent (Init ([0] : List ℚ) 1) ∧
      consistent (Accumulate (Init ([0] : List ℚ) 1) [2] 1 2) :=
  ⟨by decide, invariants_spec.2.1 (Init [0] 1) [2] 1 2 (by decide)⟩

theorem list_sum_range (f : ℕ → ℚ) (n : ℕ) :
    ((List.range n).map f).sum = ∑ i ∈ Finset.range n, f i := by
  induction n with
  | zero => simp
  | succ n ih =>
    rw [List.range_succ, List.map_append, List.sum_append,
      Finset.sum_range_succ, ih]
    simp

/-- The one-dimensional binomial theorem over a list-indexed sum. -/
theorem binomial_list (x y : ℚ) (n : ℕ) :
    (x + y) ^ n = ((List.range (n + 1)).map
      (fun a => (Nat.choose n a : ℚ) * x ^ a * y ^ (n - a))).sum := by
  rw [list_sum_range, add_pow]
  apply Finset.sum_congr rfl
  intro a ha
  ring

theorem sum_flatMap_map {X Y : Type} (l : List X) (f : X → List Y) (g : Y → ℚ) :
    ((l.flatMap f).map g).sum = (l.map (fun a => ((f a).map g).sum)).sum := by
  induction l with
  | nil => rfl
  | cons a l ih =>
    rw [List.flatMap_cons, List.map_append, List.sum_append, List.map_cons,
      List.sum_cons, ih]

theorem sum_mul_sum_list {X Y : Type} (l1 : List X) (l2 : List Y)
    (f : X → ℚ) (g : Y → ℚ) :
    (l1.map f).sum * (l2.map g).sum
      = (l1.map (fun a => (l2.map (fun c => f a * g c)).sum)).sum := by
  induction l1 with
  | nil => simp
  | cons a l1 ih =>
    simp only [List.map_cons, List.sum_cons, add_mul, ih]
    rw [List.sum_map_mul_left]

theorem list_sum_swap {X Y : Type} (A : List X) (B : List Y) (F : X → Y → ℚ) :
    (A.map (fun a => (B.map (fun c => F a c)).sum)).sum
      = (B.map (fun c => (A.map (fun a => F a c)).sum)).sum := by
  induction A with
  | nil => simp [List.map_const']
  | cons a A ih =>
    simp only [List.map_cons, List.sum_cons, ih, List.sum_map_add]

theorem multiPow_cons (x : ℚ) (u : List ℚ) (a : ℕ) (α : List ℕ) :
    multiPow (x :: u) (a :: α) = x ^ a * multiPow u α := by
  simp [multiPow]

namespace CartesianFarField

theorem binomProd_cons (b : ℕ) (bs : List ℕ) (a : ℕ) (γ : List ℕ) :
    binomProd (b :: bs) (a :: γ) = (Nat.choose b a : ℚ) * binomProd bs γ := by
  simp [binomProd]

theorem subMI_cons (b : ℕ) (bs : List ℕ) (a : ℕ) (γ : List ℕ) :
    subMI (b :: bs) (a :: γ) = (b - a) :: subMI bs γ := rfl

/-- Membership in `belowMI`: exactly the componentwise-dominated multi-indices. -/
theorem mem_belowMI {β α : List ℕ} :
    α ∈ belowMI β ↔ List.Forall₂ (· ≤ ·) α β := by
  induction β generalizing α with
  | nil => simp [belowMI, List.forall₂_nil_right_iff]
  | cons b bs ih =>
    simp only [belowMI, List.mem_flatMap, List.mem_range, List.mem_map]
    constructor
    · rintro ⟨a, ha, γ, hγ, rfl⟩
      exact List.Forall₂.cons (by omega) (ih.mp hγ)
    · intro hf
      cases hf with
      | cons hab htail =>
        exact ⟨_, by omega, _, ih.mpr htail, rfl⟩

theorem forall₂_sum_le {α β : List ℕ} (h : List.Forall₂ (· ≤ ·) α β) :
    α.sum ≤ β.sum := by
  induction h with
  | nil => exact le_refl 0
  | cons hab htail ih =>
    simp only [List.sum_cons]
    omega

/-- The multivariate binomial (multinomial shift) theorem: a power of a
componentwise sum expands as a `belowMI`-indexed sum of mixed powers with
binomial-product weights. -/
theorem multiPow_add (u s : List ℚ) (β : List ℕ)
    (hu : u.length = β.length) (hs : s.length = β.length) :
    multiPow (List.zipWith (· + ·) u s) β
      = ((belowMI β).map (fun α =>
          binomProd β α * multiPow u α * multiPow s (subMI β α))).sum := by
  induction β generalizing u s with
  | nil =>
    simp [belowMI, multiPow, binomProd, subMI]
  | cons b bs ih =>
    cases u with
    | nil => simp at hu
    | cons u0 us =>
      cases s with
      | nil => simp at hs
      | cons s0 ss =>
        simp only [List.length_cons, Nat.succ_inj] at hu hs
        rw [List.zipWith_cons_cons, multiPow_cons, binomial_list u0 s0 b,
          ih us ss hu hs, sum_mul_sum_list]
        show _ = ((belowMI (b :: bs)).map _).sum
        rw [belowMI, sum_flatMap_map]
        apply congrArg List.sum
        apply List.map_congr_left
        intro a ha
        rw [List.map_map]
        apply congrArg List.sum
        apply List.map_congr_left
        intro γ hγ
        show (Nat.choose b a : ℚ) * u0 ^ a * s0 ^ (b - a) *
            (binomProd bs γ * multiPow us γ * multiPow ss (subMI bs γ))
          = binomProd (b :: bs) (a :: γ) * multiPow (u0 :: us) (a :: γ) *
            multiPow (s0 :: ss) (subMI (b :: bs) (a :: γ))
        rw [binomProd_cons, subMI_cons, multiPow_cons, multiPow_cons]
        ring

theorem indexOf_lt_length_of_mem {X : Type} [BEq X] [LawfulBEq X] {a : X}
    {l : List X} (h : a ∈ l) : l.indexOf a < l.length := by
  induction l with
  | nil => exact absurd h (List.not_mem_nil a)
  | cons x l ih =>
    by_cases hx : x = a
    · simp [List.indexOf_cons, hx]
    · have h1 : a ∈ l := by
        rcases List.mem_cons.mp h with h2 | h2
        · exact absurd h2.symm hx
        · exact h2
      simp only [List.indexOf_cons, List.length_cons]
      rw [show (x == a) = false from beq_eq_false_iff_ne.mpr hx]
      simpa using ih h1

theorem getD_map_indexOf {X : Type} [BEq X] [LawfulBEq X] (f : X → ℚ) {a : X}
    {l : List X} (h : a ∈ l) : (l.map f).getD (l.indexOf a) 0 = f a := by
  induction l with
  | nil => exact absurd h (List.not_mem_nil a)
  | cons x l ih =>
    by_cases hx : x = a
    · subst hx
      simp [List.indexOf_cons]
    · have h1 : a ∈ l := by
        rcases List.mem_cons.mp h with h2 | h2
        · exact absurd h2.symm hx
        · exact h2
      rw [List.map_cons, List.indexOf_cons,
        show (x == a) = false from beq_eq_false_iff_ne.mpr hx]
      exact ih h1

theorem getD_append_left {X : Type} (l1 l2 : List X) (d : X) (n : ℕ)
    (h : n < l1.length) : (l1 ++ l2).getD n d = l1.getD n d := by
  induction l1 generalizing n with
  | nil => simp at h
  | cons x l1 ih =>
    cases n with
    | zero => rfl
    | succ n =>
      simp only [List.length_cons, Nat.succ_lt_succ_iff] at h
      simp only [List.cons_append, List.getD_cons_succ]
      exact ih n h

/-- Looking up a coefficient by the rank of its multi-index in a vector laid
out over the enumeration retrieves the entry for that multi-index. -/
theorem rank_lookup {D p : ℕ} (f : List ℕ → ℚ) {α : List ℕ}
    (h : α ∈ enumerateMultiIndices D p) :
    ((enumerateMultiIndices D p).map f).getD (rank α) 0 = f α := by
  obtain ⟨hlen, hsum⟩ := mem_enumerateMultiIndices.mp h
  have hmem : α ∈ enumerateMultiIndices D α.sum :=
    mem_enumerateMultiIndices.mpr ⟨hlen, le_refl _⟩
  obtain ⟨t, ht, -⟩ := enumerateMultiIndices_extend (D := D) hsum
  have hrank : rank α = (enumerateMultiIndices D α.sum).indexOf α := by
    rw [rank, hlen]
  rw [ht, List.map_append, hrank,
    getD_append_left _ _ _ _
      (by rw [List.length_map]; exact indexOf_lt_length_of_mem hmem),
    getD_map_indexOf f hmem]

/-- Normalized displacements compose: going through an intermediate center
adds the displacement of the two centers. -/
theorem displacement_add (kh : ℚ) :
    ∀ (r c1 c2 : List ℚ), r.length = c1.length → c1.length = c2.length →
      List.zipWith (· + ·) (displacement c1 kh r) (displacement c2 kh c1)
        = displacement c2 kh r := by
  intro r
  induction r with
  | nil => intro c1 c2 h1 h2; rfl
  | cons x r ih =>
    intro c1 c2 h1 h2
    cases c1 with
    | nil => simp at h1
    | cons a c1 =>
      cases c2 with
      | nil => simp at h2
      | cons b c2 =>
        simp only [List.length_cons, Nat.succ_inj] at h1 h2
        simp only [displacement, List.zipWith_cons_cons]
        rw [div_add_div_same, sub_add_sub_cancel]
        exact congrArg _ (ih c1 c2 h1 h2)

/-- The multinomial shift theorem applied to batch moments: re-centered
moments with shift weights recover the moments about the new center. -/
theorem moment_shift (kh : ℚ) (C C2 : List ℚ) (pts : List (List ℚ × ℚ))
    (β : List ℕ) (hC2 : C2.length = C.length) (hβ : β.length = C.length)
    (hpts : ∀ rw ∈ pts, rw.1.length = C.length) :
    ((belowMI β).map (fun α =>
        binomProd β α * multiPow (displacement C kh C2) (subMI β α) *
          (pts.map (fun rw => rw.2 * multiPow (displacement C2 kh rw.1) α)).sum)).sum
      = (pts.map (fun rw => rw.2 * multiPow (displacement C kh rw.1) β)).sum := by
  have hs : (displacement C kh C2).length = β.length := by
    rw [displacement, List.length_zipWith, hC2, hβ, min_self]
  calc
    ((belowMI β).map (fun α =>
        binomProd β α * multiPow (displacement C kh C2) (subMI β α) *
          (pts.map (fun rw => rw.2 * multiPow (displacement C2 kh rw.1) α)).sum)).sum
      = ((belowMI β).map (fun α => (pts.map (fun rw =>
          binomProd β α * multiPow (displacement C kh C2) (subMI β α) *
            (rw.2 * multiPow (displacement C2 kh rw.1) α))).sum)).sum := by
        apply congrArg List.sum
        apply List.map_congr_left
        intro α hα
        exact (List.sum_map_mul_left pts _ _).symm
    _ = (pts.map (fun rw => ((belowMI β).map (fun α =>
          binomProd β α * multiPow (displacement C kh C2) (subMI β α) *
            (rw.2 * multiPow (displacement C2 kh rw.1) α))).sum)).sum :=
        list_sum_swap _ _ _
    _ = (pts.map (fun rw => rw.2 * multiPow (displacement C kh rw.1) β)).sum := by
        apply congrArg List.sum
        apply List.map_congr_left
        intro rw hrw
        have hu : (displacement C2 kh rw.1).length = β.length := by
          rw [displacement, List.length_zipWith, hpts rw hrw, hC2, hβ, min_self]
        calc
          ((belowMI β).map (fun α =>
              binomProd β α * multiPow (displacement C kh C2) (subMI β α) *
                (rw.2 * multiPow (displacement C2 kh rw.1) α))).sum
            = ((belowMI β).map (fun α => rw.2 *
                (binomProd β α * multiPow (displacement C2 kh rw.1) α *
                  multiPow (displacement C kh C2) (subMI β α)))).sum := by
              apply congrArg List.sum
              apply List.map_congr_left
              intro α hα
              ring
          _ = rw.2 * ((belowMI β).map (fun α =>
                binomProd β α * multiPow (displacement C2 kh rw.1) α *
                  multiPow (displacement C kh C2) (subMI β α))).sum :=
              List.sum_map_mul_left _ _ _
          _ = rw.2 * multiPow (List.zipWith (· + ·) (displacement C2 kh rw.1)
                (displacement C kh C2)) β := by
              rw [multiPow_add _ _ _ hu hs]
          _ = rw.2 * multiPow (displacement C kh rw.1) β := by
              rw [displacement_add kh rw.1 C2 C
                ((hpts rw hrw).trans hC2.symm) hC2]

/-- If the search finds an order, it satisfies the bound, lies in the searched
window, and is the first order in the window satisfying the bound. -/
theorem searchOrderFrom_some (b : ℕ → ℚ) (t : ℚ) :
    ∀ fuel i o : ℕ, searchOrderFrom b t i fuel = some o →
      b o ≤ t ∧ i ≤ o ∧ o < i + fuel ∧ ∀ j, i ≤ j → j < o → t < b j := by
  intro fuel
  induction fuel with
  | zero => intro i o h; simp [searchOrderFrom] at h
  | succ fuel ih =>
    intro i o h
    rw [searchOrderFrom] at h
    by_cases hb : b i ≤ t
    · rw [if_pos hb] at h
      obtain rfl : i = o := Option.some.inj h
      exact ⟨hb, le_refl i, by omega, fun j h1 h2 => absurd (h1.trans_lt h2) (lt_irrefl i)⟩
    · rw [if_neg hb] at h
      obtain ⟨h1, h2, h3, h4⟩ := ih (i + 1) o h
      refine ⟨h1, by omega, by omega, ?_⟩
      intro j hij hjo
      rcases Nat.eq_or_lt_of_le hij with rfl | hij2
      · exact not_le.mp hb
      · exact h4 j hij2 hjo

/-- The search fails exactly when no order in the window meets the bound. -/
theorem searchOrderFrom_none (b : ℕ → ℚ) (t : ℚ) :
    ∀ fuel i : ℕ, searchOrderFrom b t i fuel = none ↔
      ∀ j, i ≤ j → j < i + fuel → t < b j := by
  intro fuel
  induction fuel with
  | zero =>
    intro i
    simp only [searchOrderFrom, true_iff]
    intro j h1 h2
    omega
  | succ fuel ih =>
    intro i
    rw [searchOrderFrom]
    by_cases hb : b i ≤ t
    · rw [if_pos hb]
      constructor
      · intro h
        exact absurd h (Option.some_ne_none i)
      · intro hall
        exact absurd hb (not_le.mpr (hall i (le_refl i) (by omega)))
    · rw [if_neg hb, ih (i + 1)]
      constructor
      · intro hall j h1 h2
        rcases Nat.eq_or_lt_of_le h1 with rfl | h1'
        · exact not_le.mp hb
        · exact hall j h1' (by omega)
      · intro hall j h1 h2
        exact hall j (by omega) (by omega)

end CartesianFarField

open CartesianFarField in
/-- C2: for any non-increasing error bound, `OrderForEvaluating` returns the
smallest order in `0..maxOrder` whose bound is at most `maxError` together
with that bound as the actual error (so for a returned order `> 0` the
previous order does not satisfy the bound), the bound it reports is
non-increasing as the order increases, and it returns the `-1` sentinel
exactly when no order up to `maxOrder` qualifies. -/
theorem OrderForEvaluating_spec (b : ℕ → ℚ) (maxOrder : ℕ) (maxError : ℚ)
    (hmono : ∀ i j : ℕ, i ≤ j → b j ≤ b i) :
    (∀ i : ℕ, (OrderForEvaluating b maxOrder maxError).1 = (i : ℤ) →
        i ≤ maxOrder ∧ b i ≤ maxError ∧
          (OrderForEvaluating b maxOrder maxError).2 = b i ∧
          ∀ j, j < i → maxError < b j) ∧
      ((OrderForEvaluating b maxOrder maxError).1 = -1 ↔
        ∀ i, i ≤ maxOrder → maxError < b i) ∧
      (∀ i j : ℕ, i ≤ j → b j ≤ b i) := by
  rcases hs : searchOrderFrom b maxError 0 (maxOrder + 1) with - | o
  · have hnone := (searchOrderFrom_none b maxError (maxOrder + 1) 0).mp hs
    refine ⟨?_, ?_, hmono⟩
    · intro i hi
      rw [OrderForEvaluating, hs] at hi
      simp at hi
    · rw [OrderForEvaluating, hs]
      simp only [true_iff]
      intro i hi
      exact hnone i (Nat.zero_le i) (by omega)
  · obtain ⟨h1, -, h3, h4⟩ := searchOrderFrom_some b maxError (maxOrder + 1) 0 o hs
    refine ⟨?_, ?_, hmono⟩
    · intro i hi
      rw [OrderForEvaluating, hs] at hi ⊢
      simp only at hi
      obtain rfl : o = i := by exact_mod_cast hi
      exact ⟨by omega, h1, rfl, fun j hj => h4 j (Nat.zero_le j) hj⟩
    · rw [OrderForEvaluating, hs]
      simp only
      constructor
      · intro habs
        omega
      · intro hall
        exact absurd h1 (not_le.mpr (hall o (by omega)))

open CartesianFarField in
/-- Witness for C2 at a concrete input: with the strictly decreasing bound
`b i = 1 − i`, tolerance `−1/2` and maximum order `5`, the selected order is
`2`, whose bound `−1` meets the tolerance while orders `0` and `1` do not. -/
theorem OrderForEvaluating_spec_witness :
    (∀ i j : ℕ, i ≤ j → ((1 : ℚ) - j) ≤ ((1 : ℚ) - i)) ∧
      ((2 : ℕ) ≤ 5 ∧ (1 : ℚ) - (2 : ℕ) ≤ -1/2 ∧
        (OrderForEvaluating (fun i => (1 : ℚ) - i) 5 (-1/2)).2
          = (1 : ℚ) - (2 : ℕ) ∧
        ∀ j : ℕ, j < 2 → (-1/2 : ℚ) < (1 : ℚ) - j) := by
  have hm : ∀ i j : ℕ, i ≤ j → ((1 : ℚ) - j) ≤ ((1 : ℚ) - i) := by
    intro i j h
    have : (i : ℚ) ≤ (j : ℚ) := by exact_mod_cast h
    linarith
  exact ⟨hm, (OrderForEvaluating_spec (fun i => (1 : ℚ) - i) 5 (-1/2) hm).1 2
    (by norm_num [OrderForEvaluating, searchOrderFrom])⟩

open CartesianFarField in
/-- C6: `OrderForConvertingToLocal` returns the `-1` sentinel exactly when no
order up to `maxOrder` brings the combined error bound under the requested
bound; it is a total function whose result is either the sentinel or a genuine
order whose combined bound meets the requested bound, so infeasibility is a
recoverable condition reported through the return value. -/
theorem OrderForConvertingToLocal_spec (b : ℕ → ℚ) (maxOrder : ℕ) (t : ℚ) :
    ((OrderForConvertingToLocal b maxOrder t).1 = -1 ↔
        ∀ i, i ≤ maxOrder → t < b i) ∧
      (∀ i : ℕ, (OrderForConvertingToLocal b maxOrder t).1 = (i : ℤ) →
        i ≤ maxOrder ∧ b i ≤ t) ∧
      ((OrderForConvertingToLocal b maxOrder t).1 = -1 ∨
        ∃ i : ℕ, i ≤ maxOrder ∧
          (OrderForConvertingToLocal b maxOrder t).1 = (i : ℤ) ∧ b i ≤ t) := by
  rcases hs : searchOrderFrom b t 0 (maxOrder + 1) with - | o
  · have hnone := (searchOrderFrom_none b t (maxOrder + 1) 0).mp hs
    refine ⟨?_, ?_, Or.inl ?_⟩
    · rw [OrderForConvertingToLocal, hs]
      simp only [true_iff]
      intro i hi
      exact hnone i (Nat.zero_le i) (by omega)
    · intro i hi
      rw [OrderForConvertingToLocal, hs] at hi
      simp at hi
    · rw [OrderForConvertingToLocal, hs]
  · obtain ⟨h1, -, h3, -⟩ := searchOrderFrom_some b t (maxOrder + 1) 0 o hs
    refine ⟨?_, ?_, Or.inr ⟨o, by omega, ?_, h1⟩⟩
    · rw [OrderForConvertingToLocal, hs]
      simp only
      constructor
      · intro habs
        omega
      · intro hall
        exact absurd h1 (not_le.mpr (hall o (by omega)))
    · intro i hi
      rw [OrderForConvertingToLocal, hs] at hi
      simp only at hi
      obtain rfl : o = i := by exact_mod_cast hi
      exact ⟨by omega, h1⟩
    · rw [OrderForConvertingToLocal, hs]

open CartesianFarField in
/-- Witness for C6 at the §8 infeasibility scenario: a constant bound `1` can
never meet the tolerance `0` for any order up to `5`, and the selector reports
the `-1` sentinel. -/
theorem OrderForConvertingToLocal_spec_witness :
    (∀ i : ℕ, i ≤ 5 → (0 : ℚ) < 1) ∧
      (OrderForConvertingToLocal (fun _ => (1 : ℚ)) 5 0).1 = -1 :=
  ⟨fun i _ => by norm_num,
    (OrderForConvertingToLocal_spec (fun _ => (1 : ℚ)) 5 0).1.mpr
      (fun i _ => by norm_num)⟩

open CartesianFarField in
/-- C3: accumulating a point set directly into a far-field expansion centered
at `C` yields the same coefficients as accumulating it at a different center
`C2` and merging into the (fresh) expansion at `C` with
`TranslateFromFarField`; the merge increments the target coefficients by the
translation delta (and, the model being functional, never mutates the
source). -/
theorem translation_invariance (C C2 : List ℚ) (kh : ℚ) (data : List (List ℚ))
    (weights : List ℚ) (p : ℕ) (hC2 : C2.length = C.length)
    (hdata : ∀ r ∈ data, r.length = C.length) :
    (TranslateFromFarField (Init C kh)
        (AccumulateCoeffs (Init C2 kh) data weights p)).coeffs
      = (AccumulateCoeffs (Init C kh) data weights p).coeffs
    ∧ ∀ e se : CartesianFarField,
        (TranslateFromFarField e se).coeffs
          = addInto e.coeffs (translationDelta e se) := by
  refine ⟨?_, fun e se => rfl⟩
  obtain ⟨hc, ho, hcen, hkh⟩ := AccumulateCoeffs_Init C2 kh data weights p
  obtain ⟨hc1, -, -, -⟩ := AccumulateCoeffs_Init C kh data weights p
  rw [hc1, momentVector]
  show addInto (Init C kh).coeffs
      (translationDelta (Init C kh) (AccumulateCoeffs (Init C2 kh) data weights p)) = _
  simp only [translationDelta, dim, ho, hcen, hc, hkh]
  simp only [Init]
  rw [show numCoeffs C.length 0 = (enumerateMultiIndices C.length 0).length from rfl,
    ← List.map_const' (enumerateMultiIndices C.length 0) (0 : ℚ),
    addInto_map_grow (Nat.zero_le p)]
  apply List.map_congr_left
  intro β hβmem
  rw [ite_self, zero_add]
  obtain ⟨hβlen, hβsum⟩ := mem_enumerateMultiIndices.mp hβmem
  calc
    ((belowMI β).map (fun α =>
        binomProd β α * multiPow (displacement C kh C2) (subMI β α) *
          (momentVector C2 kh data weights p).getD (rank α) 0)).sum
      = ((belowMI β).map (fun α =>
          binomProd β α * multiPow (displacement C kh C2) (subMI β α) *
            ((data.zip weights).map
              (fun rw => rw.2 * multiPow (displacement C2 kh rw.1) α)).sum)).sum := by
        apply congrArg List.sum
        apply List.map_congr_left
        intro α hα
        have hf : List.Forall₂ (· ≤ ·) α β := mem_belowMI.mp hα
        have hmem2 : α ∈ enumerateMultiIndices C2.length p :=
          mem_enumerateMultiIndices.mpr
            ⟨hf.length_eq.trans (hβlen.trans hC2.symm),
              (forall₂_sum_le hf).trans hβsum⟩
        rw [momentVector, rank_lookup _ hmem2]
    _ = ((data.zip weights).map
          (fun rw => rw.2 * multiPow (displacement C kh rw.1) β)).sum :=
        moment_shift kh C C2 (data.zip weights) β hC2 hβlen
          (fun rw hrw => hdata rw.1 (List.of_mem_zip hrw).1)

open CartesianFarField in
/-- Witness for C3 at a concrete input: one-dimensional centers `0` and `1`,
two points. -/
theorem translation_invariance_witness :
    (([1] : List ℚ).length = ([0] : List ℚ).length ∧
        ∀ r ∈ ([[2], [3]] : List (List ℚ)), r.length = ([0] : List ℚ).length) ∧
      (TranslateFromFarField (Init [0] 1)
          (AccumulateCoeffs (Init [1] 1) [[2], [3]] [1, 2] 2)).coeffs
        = (AccumulateCoeffs (Init [0] 1) [[2], [3]] [1, 2] 2).coeffs :=
  ⟨⟨by decide, by decide⟩,
    (translation_invariance [0] [1] 1 [[2], [3]] [1, 2] 2 (by decide)
      (by decide)).1⟩

end mlpack

namespace math

/-- C9: `ClampRange(value, range_min, range_max)` equals
`max(range_min, min(range_max, value))` whenever `range_min ≤ range_max`; it
returns `range_min` when `value ≤ range_min`, `range_max` when
`value ≥ range_max`, and `value` itself otherwise. -/
theorem ClampRange_spec (value range_min range_max : ℚ)
    (h : range_min ≤ range_max) :
    ClampRange value range_min range_max = max range_min (min range_max value) ∧
    (value ≤ range_min → ClampRange value range_min range_max = range_min) ∧
    (range_max ≤ value → ClampRange value range_min range_max = range_max) ∧
    (range_min < value → value < range_max →
      ClampRange value range_min range_max = value) := by
  unfold ClampRange
  refine ⟨?_, ?_, ?_, ?_⟩
  · split_ifs with h1 h2
    · rw [min_eq_right (h1.trans h), max_eq_left h1]
    · rw [min_eq_left h2, max_eq_right h]
    · push_neg at h1 h2
      rw [min_eq_right h2.le, max_eq_right h1.le]
  · intro hv; rw [if_pos hv]
  · intro hv
    split_ifs with h1
    · exact le_antisymm h (hv.trans h1)
    · rfl
  · intro hv1 hv2
    rw [if_neg (not_le.mpr hv1), if_neg (not_le.mpr hv2)]

/-- Witness for C9 at a concrete input. -/
theorem ClampRange_spec_witness :
    ((0 : ℚ) ≤ 10) ∧
    (ClampRange 3 0 10 = max 0 (min 10 3) ∧
      ((3:ℚ) ≤ 0 → ClampRange 3 0 10 = 0) ∧
      ((10:ℚ) ≤ 3 → ClampRange 3 0 10 = 10) ∧
      ((0:ℚ) < 3 → (3:ℚ) < 10 → ClampRange 3 0 10 = 3)) :=
  ⟨by norm_num, ClampRange_spec 3 0 10 (by norm_num)⟩

/-- C10: the branch-free `ClampNonNegative d = (d + |d|)/2` equals `max d 0`,
and `ClampNonPositive d = (d − |d|)/2` equals `min d 0`, for every rational
`d`. -/
theorem Clamp_branch_free_spec (d : ℚ) :
    ClampNonNegative d = max d 0 ∧ ClampNonPositive d = min d 0 := by
  unfold ClampNonNegative ClampNonPositive
  rcases le_total 0 d with hd | hd
  · rw [abs_of_nonneg hd, max_eq_left hd, min_eq_right hd]
    constructor <;> ring
  · rw [abs_of_nonpos hd, max_eq_right hd, min_eq_left hd]
    constructor <;> ring

end math
